import Mathlib

/-!
Verification of the file-roller FUSE bridge (`src/fr-fuse.c`) against its
natural-language specification.

The C module is shallowly embedded: the inode table (`GPtrArray *inodes`)
becomes a `List (Option FrFileData)`, the reverse path map
(`GHashTable *paths`, keys are full archive paths, values are the owned
descriptor copies — identified here by their slot index, since each slot owns
exactly one copy) becomes a function `String → Option Nat`, and each kernel
request handler becomes a pure function from the table state and the request
arguments to a reply value.  Machine integers (`unsigned int`, `fuse_ino_t`,
`size_t`, `off_t`) are modelled as `Nat`; every arithmetic the code performs
on them is guarded so no overflow or underflow occurs in the modelled ranges.
-/

/-- Archive member descriptor (`FrFileData` from fr-file-data.h): full archive
path, parent directory path, parent-relative name, original on-disk path used
for extraction, byte size, aggregate directory size, and the directory flag.
`fr_file_data_copy` is deep and field-preserving, so copying is the identity
in this value-level model. -/
structure FrFileData where
  full_path : String
  path : String
  name : String
  original_path : String
  size : Nat
  dir_size : Nat
  dir : Bool
deriving DecidableEq, Repr, Inhabited

/-- `fr_file_data_is_dir` — the directory predicate of a descriptor. -/
def fr_file_data_is_dir (f : FrFileData) : Bool :=
  f.dir

/-- Size reported for an entry: `dir_size` for directories, `size` for files
(the expression `fr_file_data_is_dir (fdata) ? fdata->dir_size : fdata->size`
used throughout the C code). -/
def entrySize (f : FrFileData) : Nat :=
  if fr_file_data_is_dir f then f.dir_size else f.size

/-- Split a character list on the path separator. -/
def splitSlash : List Char → List (List Char)
  | [] => [[]]
  | c :: rest =>
      let r := splitSlash rest
      if c = '/' then [] :: r
      else
        match r with
        | [] => [[c]]
        | h :: t => (c :: h) :: t

/-- Join path components with a single separator. -/
def joinSlash : List String → String
  | [] => ""
  | [c] => c
  | c :: rest => c ++ "/" ++ joinSlash rest

/-- Model of `g_canonicalize_filename (p, "/")`: makes the path absolute
against `/`, drops empty components (duplicate or trailing separators),
resolves `.` components and resolves `..` against the accumulated prefix.
GLib's canonicalization is purely lexical, which this reproduces. -/
def canonicalize (p : String) : String :=
  let comps := (splitSlash p.toList).map (fun c => String.mk c)
  let kept := comps.foldl
    (fun acc c =>
      if c = "" ∨ c = "." then acc
      else if c = ".." then acc.dropLast
      else acc ++ [c])
    ([] : List String)
  "/" ++ joinSlash kept

/-- Read slot `i` of the inode array: `ff->inodes->pdata[i]`, with out-of-range
reads collapsed to `none` (every access in the C code is range-guarded before
dereferencing). -/
def slotAt : List (Option FrFileData) → Nat → Option FrFileData
  | [], _ => none
  | o :: _, 0 => o
  | _ :: rest, j + 1 => slotAt rest j

/-- Overwrite slot `i` of the inode array (the effect of
`g_clear_pointer (&ff->inodes->pdata[ino], fr_file_data_free)` is `setAt
inodes ino none`). -/
def setAt : List (Option FrFileData) → Nat → Option FrFileData → List (Option FrFileData)
  | [], _, _ => []
  | _ :: rest, 0, v => v :: rest
  | o :: rest, j + 1, v => o :: setAt rest j v

/-- Reverse path map `ff->paths`: full archive path to the slot index owning
the descriptor stored under that key (the C table stores the descriptor
pointer; each slot owns exactly one copy, so the slot index identifies it). -/
def PathMap : Type :=
  String → Option Nat

/-- Empty hash table. -/
def mapEmpty : PathMap :=
  fun _ => none

/-- `g_hash_table_replace`: insert, overwriting any previous entry for the key. -/
def mapReplace (m : PathMap) (k : String) (v : Nat) : PathMap :=
  fun q => if q = k then some v else m q

/-- `g_hash_table_remove`: drop the entry for the key, if any. -/
def mapRemove (m : PathMap) (k : String) : PathMap :=
  fun q => if q = k then none else m q

/-- `g_hash_table_contains`. -/
def mapContains (m : PathMap) (k : String) : Bool :=
  (m k).isSome

/-- The mutable bridge state the inode operations act on: the inode array and
the reverse path map. -/
structure FuseState where
  inodes : List (Option FrFileData)
  paths : PathMap

/-- `_fr_fuse_create_inode`: append a copy of `src` (or a hole when `src` is
`NULL`) as a new slot; when an entry is present, also record it in the
reverse map under its full path.  The new slot's inode number is the table
length before the append, returned here as the second component. -/
def fr_fuse_create_inode (s : FuseState) (src : Option FrFileData) : FuseState × Nat :=
  let ino := s.inodes.length
  let paths :=
    match src with
    | none => s.paths
    | some f => mapReplace s.paths f.full_path ino
  (⟨s.inodes ++ [src], paths⟩, ino)

/-- `_fr_fuse_delete_inode`: no-op when `ino` is reserved (`ino <= FUSE_ROOT_ID`,
with `FUSE_ROOT_ID = 1`), out of range, or already a hole; otherwise remove the
reverse-map entry for the slot's full path and clear the slot to a hole.  The
array is never shrunk. -/
def fr_fuse_delete_inode (s : FuseState) (ino : Nat) : FuseState :=
  if ino ≤ 1 ∨ s.inodes.length ≤ ino then s
  else
    match slotAt s.inodes ino with
    | none => s
    | some f => ⟨setAt s.inodes ino none, mapRemove s.paths f.full_path⟩

/-- `_fr_fuse_get_file_by_ino`: range-checked slot read, `none` for reserved,
out-of-range and hole inodes. -/
def fr_fuse_get_file_by_ino (s : FuseState) (ino : Nat) : Option FrFileData :=
  if ino ≤ 1 ∨ s.inodes.length ≤ ino then none
  else slotAt s.inodes ino

/-- `_fr_fuse_get_size_by_ino`: for a non-root inode, the entry's own size
(`dir_size` for directories) or `0` when unresolved; for the root
(`FUSE_ROOT_ID = 1`), the sum of sizes of live entries whose canonicalized
parent path is exactly `/` (the loop runs from `FR_FUSE_INODE_START = 2`). -/
def fr_fuse_get_size_by_ino (s : FuseState) (ino : Nat) : Nat :=
  if ino ≠ 1 then
    match fr_fuse_get_file_by_ino s ino with
    | none => 0
    | some f => entrySize f
  else
    (s.inodes.drop 2).foldl
      (fun acc o =>
        match o with
        | none => acc
        | some f => if canonicalize f.path = "/" then acc + entrySize f else acc)
      0

/-- The table state established by `fr_fuse_mount`: a fresh array and map,
then two `_fr_fuse_create_inode (ff, NULL)` calls reserving inodes 0 and 1. -/
def initState : FuseState :=
  (fr_fuse_create_inode (fr_fuse_create_inode ⟨[], mapEmpty⟩ none).1 none).1

/-- A single inode-table operation, as used by the invariant claims. -/
inductive TableOp where
  | create (src : Option FrFileData)
  | delete (ino : Nat)

/-- Apply one table operation. -/
def applyOp (s : FuseState) (op : TableOp) : FuseState :=
  match op with
  | .create src => (fr_fuse_create_inode s src).1
  | .delete ino => fr_fuse_delete_inode s ino

/-- Apply a sequence of table operations in order. -/
def applyOps (s : FuseState) (ops : List TableOp) : FuseState :=
  ops.foldl applyOp s

/-- A sequence of operations in which every `create` of a live entry is
performed while that entry's full path is absent from the reverse map — this
is exactly how `fr_fuse_update_inodes` invokes `_fr_fuse_create_inode`
(guarded by `!g_hash_table_contains (ff->paths, fdata->full_path)`). -/
def createsFresh (s : FuseState) : List TableOp → Bool
  | [] => true
  | op :: rest =>
      (match op with
       | .create (some f) => !(mapContains s.paths f.full_path)
       | _ => true)
      && createsFresh (applyOp s op) rest

/-- Table/reverse-map agreement: every live slot's full path is mapped to that
slot, and every map entry points at a live slot carrying exactly that path. -/
def agreement (s : FuseState) : Prop :=
  (∀ i f, slotAt s.inodes i = some f → s.paths f.full_path = some i)
  ∧ (∀ p i, s.paths p = some i → ∃ f, slotAt s.inodes i = some f ∧ f.full_path = p)

/-- Kernel-protocol error codes the handlers reply with. -/
inductive Errno where
  | ENOENT
  | ENOTDIR
  | EISDIR
  | EACCES
deriving DecidableEq, Repr

/-- Reply of the lookup handler: either an error, or an entry reply carrying
the inode, the directory bit of its mode (`S_IFDIR|0755` vs `S_IFREG|0644`)
and the reported size. -/
inductive LookupReply where
  | err (e : Errno)
  | entry (ino : Nat) (isDirMode : Bool) (size : Nat)
deriving DecidableEq, Repr

/-- Directory-path resolution shared verbatim by `_fr_fuse_lookup` and
`_fr_fuse_readdir`: the root resolves to `/`; any other inode is looked up in
the table and, when live, its full path is canonicalized; otherwise the
resolution fails (the callers reply `ENOTDIR`). -/
def resolveDirPath (s : FuseState) (ino : Nat) : Option String :=
  if ino = 1 then some "/"
  else
    match fr_fuse_get_file_by_ino s ino with
    | none => none
    | some dir => some (canonicalize dir.full_path)

/-- The linear scan of `_fr_fuse_lookup`: first slot `i ≥ FR_FUSE_INODE_START`
holding a live entry whose canonicalized parent path equals the probe path and
whose name equals the requested name. -/
def lookupScan (s : FuseState) (path name : String) : Option Nat :=
  (List.range s.inodes.length).find? (fun i =>
    decide (2 ≤ i)
    && (match slotAt s.inodes i with
        | none => false
        | some f => (canonicalize f.path == path) && (f.name == name)))

/-- `_fr_fuse_lookup`: resolve the parent to a directory path (replying
`ENOTDIR` when it does not resolve); reply a fixed root-identity entry when
the requested name is `.`; otherwise scan the table, replying the found
entry's inode, mode and size, or `ENOENT`. -/
def fr_fuse_lookup (s : FuseState) (parent : Nat) (name : String) : LookupReply :=
  match resolveDirPath s parent with
  | none => .err .ENOTDIR
  | some path =>
      if name = "." then
        .entry 1 true (fr_fuse_get_size_by_ino s 1)
      else
        match lookupScan s path name with
        | some i =>
            match slotAt s.inodes i with
            | some f => .entry i (fr_file_data_is_dir f) (fr_fuse_get_size_by_ino s i)
            | none => .err .ENOENT
        | none => .err .ENOENT

/-- Reply of the getattr handler. -/
inductive AttrReply where
  | err (e : Errno)
  | attr (ino : Nat) (isDirMode : Bool) (size : Nat)
deriving DecidableEq, Repr

/-- `_fr_fuse_getattr`: root gets directory attributes with the aggregate
size; any other inode is resolved in the table (`ENOENT` when absent) and
answered with its mode and `_fr_fuse_get_size_by_ino` size. -/
def fr_fuse_getattr (s : FuseState) (ino : Nat) : AttrReply :=
  if ino = 1 then .attr 1 true (fr_fuse_get_size_by_ino s 1)
  else
    match fr_fuse_get_file_by_ino s ino with
    | none => .err .ENOENT
    | some f => .attr ino (fr_file_data_is_dir f) (fr_fuse_get_size_by_ino s ino)

/-- Reply of the readdir handler: an error, or the list of `(name, inode)`
directory entries accumulated in table order together with the requested
offset and size.  The serialization of the entries into the byte dirbuf by
`fuse_add_direntry` is external to this module; the final slicing of that
buffer is `_fr_fuse_reply_buf_limited`, verified separately. -/
inductive ReaddirReply where
  | err (e : Errno)
  | buf (entries : List (String × Nat)) (off : Nat) (size : Nat)
deriving DecidableEq, Repr

/-- `_fr_fuse_readdir`: resolve the directory path exactly as lookup does
(replying `ENOTDIR` on failure), then append every live slot whose
canonicalized parent path equals it, in table order. -/
def fr_fuse_readdir (s : FuseState) (ino : Nat) (size off : Nat) : ReaddirReply :=
  match resolveDirPath s ino with
  | none => .err .ENOTDIR
  | some dirPath =>
      .buf
        ((List.range s.inodes.length).foldl
          (fun acc i =>
            if 2 ≤ i then
              match slotAt s.inodes i with
              | none => acc
              | some f =>
                  if canonicalize f.path = dirPath then acc ++ [(f.name, i)] else acc
            else acc)
          [])
        off size

/-- The access-mode component of the open flags (`flags & O_ACCMODE`). -/
inductive AccMode where
  | rdonly
  | wronly
  | rdwr
deriving DecidableEq, Repr

/-- Open flags as the handler can observe them: the access mode and the
`O_APPEND` bit (which lies outside `O_ACCMODE`). -/
structure OpenFlags where
  accMode : AccMode
  append : Bool
deriving DecidableEq, Repr

/-- Reply of the open handler: an error, or acceptance (the code then sets
`fi->direct_io = 1` and calls `fuse_reply_open`). -/
inductive OpenReply where
  | err (e : Errno)
  | ok
deriving DecidableEq, Repr

/-- `_fr_fuse_open`: the root is rejected with `EISDIR`; a request whose
access mode is not `O_RDONLY` is rejected with `EACCES` (the check is
`(fi->flags & O_ACCMODE) != O_RDONLY`, so bits outside `O_ACCMODE` such as
`O_APPEND` are not inspected); an unresolved inode is rejected with `ENOENT`;
a directory entry with `EISDIR`; everything else is accepted. -/
def fr_fuse_open (s : FuseState) (ino : Nat) (flags : OpenFlags) : OpenReply :=
  if ino = 1 then .err .EISDIR
  else if flags.accMode ≠ .rdonly then .err .EACCES
  else
    match fr_fuse_get_file_by_ino s ino with
    | none => .err .ENOENT
    | some f => if fr_file_data_is_dir f then .err .EISDIR else .ok

/-- Reply of the read handler: a synchronous error, or the start of the
asynchronous extract-then-load pipeline for the entry's original path,
carrying the requested offset and size. -/
inductive ReadReply where
  | err (e : Errno)
  | pipeline (originalPath : String) (off : Nat) (size : Nat)
deriving DecidableEq, Repr

/-- `_fr_fuse_read`: the root is rejected with `EISDIR`, an unresolved inode
with `ENOENT`, a directory with `EISDIR`; otherwise the extraction pipeline is
started for `fdata->original_path` with the requested range (the handler does
not check for an existing scratch copy — extraction is requested with
overwrite disabled). -/
def fr_fuse_read (s : FuseState) (ino : Nat) (size off : Nat) : ReadReply :=
  if ino = 1 then .err .EISDIR
  else
    match fr_fuse_get_file_by_ino s ino with
    | none => .err .ENOENT
    | some f =>
        if fr_file_data_is_dir f then .err .EISDIR
        else .pipeline f.original_path off size

/-- `_fr_fuse_reply_buf_limited`: when `off` is inside the loaded buffer,
reply the `MIN (bufsize - off, maxsize)` bytes starting at `off`, otherwise
reply an empty buffer. -/
def fr_fuse_reply_buf_limited (buf : List Nat) (off maxsize : Nat) : List Nat :=
  if off < buf.length then (buf.drop off).take (min (buf.length - off) maxsize)
  else []

/-- `_fr_fuse_release`, acting on the scratch area modelled as the list of
relative paths currently extracted under `work_dir`.  An unresolved inode is
rejected with `ENOENT`, a directory with `EISDIR`; otherwise the scratch copy
at the entry's original path is deleted only when such a file exists
(`g_file_query_exists` before `g_file_delete`).  The result is the new
scratch contents, whether a deletion was performed, and the error reply sent
(`none` when no reply at all is issued — the success path of the C handler
contains no `fuse_reply_*` call). -/
def fr_fuse_release (s : FuseState) (scratch : List String) (ino : Nat) :
    List String × Bool × Option Errno :=
  match fr_fuse_get_file_by_ino s ino with
  | none => (scratch, false, some .ENOENT)
  | some f =>
      if fr_file_data_is_dir f then (scratch, false, some .EISDIR)
      else if scratch.contains f.original_path then
        (scratch.erase f.original_path, true, none)
      else (scratch, false, none)

/-- Number of replies the release handler issues to its request handle. -/
def releaseReplyCount (s : FuseState) (scratch : List String) (ino : Nat) : Nat :=
  match (fr_fuse_release s scratch ino).2.2 with
  | some _ => 1
  | none => 0

/-- Modelled from the spec: the archive engine's `files_hash`
(`ff->archive->files_hash`, maintained by fr-archive.c which is not part of
this module's sources) — per the archive-engine interface it answers
`contains (path)` for the current member listing, and the bridge queries it
with `fdata->original_path`; it is therefore modelled as membership of the
queried path among the original paths of the current member list. -/
def origInHash (files : List FrFileData) (p : String) : Bool :=
  files.any (fun f => f.original_path == p)

/-- The deletion loop of `fr_fuse_update_inodes`, folded over the explicit
index list `[0, …, len)` (the loop body runs only from
`FR_FUSE_INODE_START = 2`): every live slot whose original path is no longer
in the archive listing is deleted.  The second component counts the
`_fr_fuse_delete_inode` calls performed. -/
def deletePassList (files : List FrFileData) : List Nat → FuseState × Nat → FuseState × Nat
  | [], acc => acc
  | i :: rest, (st, n) =>
      deletePassList files rest
        (if 2 ≤ i then
          match slotAt st.inodes i with
          | none => (st, n)
          | some f =>
              if origInHash files f.original_path then (st, n)
              else (fr_fuse_delete_inode st i, n + 1)
        else (st, n))

/-- The deletion pass over the whole table (deletions never change the array
length, so iterating over the initial index range is exact). -/
def deletePassC (files : List FrFileData) (s : FuseState) : FuseState × Nat :=
  deletePassList files (List.range s.inodes.length) (s, 0)

/-- The creation loop of `fr_fuse_update_inodes`: every archive member whose
full path is absent from the reverse map is created.  The second component
counts the `_fr_fuse_create_inode` calls performed. -/
def createPassList : List FrFileData → FuseState × Nat → FuseState × Nat
  | [], acc => acc
  | f :: rest, (st, n) =>
      if mapContains st.paths f.full_path then createPassList rest (st, n)
      else createPassList rest ((fr_fuse_create_inode st (some f)).1, n + 1)

/-- The creation pass starting with a zero counter. -/
def createPassC (files : List FrFileData) (s : FuseState) : FuseState × Nat :=
  createPassList files (s, 0)

/-- `fr_fuse_update_inodes` (Reconcile): the deletion pass followed by the
creation pass, returning the new state together with the number of delete and
create operations performed. -/
def fr_fuse_update_inodes (files : List FrFileData) (s : FuseState) :
    FuseState × Nat × Nat :=
  let d := deletePassC files s
  let c := createPassC files d.1
  (c.1, d.2, c.2)

/-- Outcomes of the three fallible external steps construction and mounting
depend on: `fuse_session_new`, `fuse_session_mount` and `g_thread_try_new`. -/
structure ExtEnv where
  sessionOk : Bool
  mountOk : Bool
  threadOk : Bool
deriving DecidableEq, Repr

/-- Error kinds reported by construction and mounting (`FR_FUSE_ERROR_FUSE_NEW`,
`FR_FUSE_ERROR_FUSE_MOUNT`, and the GLib thread-creation error propagated
through the same error slot). -/
inductive FrFuseErrorKind where
  | fuseNew
  | fuseMount
  | threadNew
deriving DecidableEq, Repr

/-- Observable lifecycle state of one bridge instance: the `started` flag, the
inode table and reverse map (allocated only by a successful mount), and
whether the request-loop thread is running. -/
structure Bridge where
  started : Bool
  table : Option FuseState
  threadRunning : Bool

/-- `fr_fuse_mount`: a no-op when already started; otherwise mount the kernel
session (failure reported as the mount error kind, state left unstarted),
start the request-loop thread (failure propagated, state left unstarted),
allocate the inode array and the reverse map, reserve inodes 0 and 1, and
mark the bridge started. -/
def fr_fuse_mount (env : ExtEnv) (b : Bridge) : Bridge × Option FrFuseErrorKind :=
  if b.started then (b, none)
  else if env.mountOk = false then (b, some .fuseMount)
  else if env.threadOk = false then (b, some .threadNew)
  else ({ started := true, table := some initState, threadRunning := true }, none)

/-- `fr_fuse_new` together with `fr_fuse_init`: construction creates the FUSE
session (failure reported as the session error kind), provisions the two
temporary directories, and immediately calls `fr_fuse_mount` on the fresh
unstarted bridge; `fr_fuse_new` returns the bridge only when no error was
recorded, and propagates the error otherwise. -/
def fr_fuse_new (env : ExtEnv) : Except FrFuseErrorKind Bridge :=
  if env.sessionOk = false then .error .fuseNew
  else
    match fr_fuse_mount env { started := false, table := none, threadRunning := false } with
    | (b, none) => .ok b
    | (_, some e) => .error e

/-- Sample regular-file entry used by the concrete checks. -/
def entFile : FrFileData :=
  ⟨"a.txt", "/", "a.txt", "a.txt", 5, 0, false⟩

/-- Second sample regular-file entry. -/
def entFileB : FrFileData :=
  ⟨"b.txt", "/", "b.txt", "b.txt", 3, 0, false⟩

/-- Sample directory entry used by the concrete checks. -/
def entDir : FrFileData :=
  ⟨"d", "/", "d", "d", 0, 7, true⟩

/-- A mounted table holding one live regular file at inode 2. -/
def fileState : FuseState :=
  applyOps initState [.create (some entFile)]

/-- A mounted table holding one live directory at inode 2. -/
def dirState : FuseState :=
  applyOps initState [.create (some entDir)]

/-- The bridge state produced by a fully successful construction. -/
def mountedBridge : Bridge :=
  { started := true, table := some initState, threadRunning := true }

/-- The claim that looking up `.` under any resolvable parent replies with
that same parent's identity (stated for refutation: the code replies with the
root identity instead). -/
def lookupDotSelfClaim : Prop :=
  ∀ (s : FuseState) (parent : Nat),
    (parent = 1 ∨ (fr_fuse_get_file_by_ino s parent).isSome = true) →
    ∃ d sz, fr_fuse_lookup s parent "." = LookupReply.entry parent d sz

theorem length_setAt (l : List (Option FrFileData)) (i : Nat) (v : Option FrFileData) :
    (setAt l i v).length = l.length := by
  induction l generalizing i with
  | nil => rfl
  | cons o rest ih =>
    cases i with
    | zero => rfl
    | succ j => simp [setAt, ih]

theorem slotAt_eq_none_of_le (l : List (Option FrFileData)) (j : Nat) (h : l.length ≤ j) :
    slotAt l j = none := by
  induction l generalizing j with
  | nil => rfl
  | cons o rest ih =>
    cases j with
    | zero => simp at h
    | succ j' => exact ih j' (by simpa using h)

theorem slotAt_lt_of_some (l : List (Option FrFileData)) (j : Nat) (f : FrFileData)
    (h : slotAt l j = some f) : j < l.length := by
  by_contra hc
  push_neg at hc
  rw [slotAt_eq_none_of_le l j hc] at h
  cases h

theorem slotAt_setAt_self (l : List (Option FrFileData)) (i : Nat) (v : Option FrFileData)
    (h : i < l.length) : slotAt (setAt l i v) i = v := by
  induction l generalizing i with
  | nil => simp at h
  | cons o rest ih =>
    cases i with
    | zero => rfl
    | succ j => simpa [setAt, slotAt] using ih j (by simpa using h)

theorem slotAt_setAt_ne (l : List (Option FrFileData)) (i j : Nat) (v : Option FrFileData)
    (h : j ≠ i) : slotAt (setAt l i v) j = slotAt l j := by
  induction l generalizing i j with
  | nil => rfl
  | cons o rest ih =>
    cases i with
    | zero =>
      cases j with
      | zero => exact absurd rfl h
      | succ j' => rfl
    | succ i' =>
      cases j with
      | zero => rfl
      | succ j' => simpa [setAt, slotAt] using ih i' j' (fun hh => h (by rw [hh]))

theorem slotAt_append_lt (l m : List (Option FrFileData)) (j : Nat) (h : j < l.length) :
    slotAt (l ++ m) j = slotAt l j := by
  induction l generalizing j with
  | nil => simp at h
  | cons o rest ih =>
    cases j with
    | zero => rfl
    | succ j' => simpa [slotAt] using ih j' (by simpa using h)

theorem slotAt_append_self (l : List (Option FrFileData)) (x : Option FrFileData) :
    slotAt (l ++ [x]) l.length = x := by
  induction l with
  | nil => rfl
  | cons o rest ih => simpa [slotAt] using ih

theorem fr_fuse_delete_inode_length (s : FuseState) (i : Nat) :
    (fr_fuse_delete_inode s i).inodes.length = s.inodes.length := by
  unfold fr_fuse_delete_inode
  by_cases hg : i ≤ 1 ∨ s.inodes.length ≤ i
  · simp [hg]
  · cases hs : slotAt s.inodes i <;> simp [hg, hs, length_setAt]

theorem fr_fuse_delete_inode_slot_ne (s : FuseState) (i j : Nat) (h : j ≠ i) :
    slotAt (fr_fuse_delete_inode s i).inodes j = slotAt s.inodes j := by
  unfold fr_fuse_delete_inode
  by_cases hg : i ≤ 1 ∨ s.inodes.length ≤ i
  · simp [hg]
  · cases hs : slotAt s.inodes i <;> simp [hg, hs, slotAt_setAt_ne _ _ _ _ h]

theorem fr_fuse_delete_inode_slot_self (s : FuseState) (i : Nat) (f : FrFileData)
    (h2 : 2 ≤ i) (hs : slotAt s.inodes i = some f) :
    slotAt (fr_fuse_delete_inode s i).inodes i = none := by
  have hlt : i < s.inodes.length := slotAt_lt_of_some _ _ _ hs
  unfold fr_fuse_delete_inode
  have hg : ¬ (i ≤ 1 ∨ s.inodes.length ≤ i) := by omega
  simp [hg, hs, slotAt_setAt_self _ _ _ hlt]

theorem applyOp_length_le (s : FuseState) (op : TableOp) :
    s.inodes.length ≤ (applyOp s op).inodes.length := by
  cases op with
  | create src => simp [applyOp, fr_fuse_create_inode]
  | delete ino => simp [applyOp, fr_fuse_delete_inode_length]

theorem applyOps_length_le (s : FuseState) (ops : List TableOp) :
    s.inodes.length ≤ (applyOps s ops).inodes.length := by
  induction ops generalizing s with
  | nil => exact Nat.le_refl _
  | cons op rest ih =>
    exact Nat.le_trans (applyOp_length_le s op) (ih (applyOp s op))

/-- C1 — Inode numbers are never reused for the lifetime of the mount: after
any sequence of Create/Delete operations from the mounted initial table,
Delete never shrinks the table and only clears slot `i` to a hole (all other
slots are untouched, and the deleted slot itself is a hole or the call was a
no-op); Create returns the current table length and grows it by one (so the
returned numbers are strictly increasing); and when `i` is an allocated slot
number at the time of `Delete(i)`, no Create performed afterwards ever
returns `i`. -/
theorem inode_numbers_never_reused (ops1 ops2 : List TableOp) (i : Nat)
    (src : Option FrFileData) :
    (fr_fuse_delete_inode (applyOps initState ops1) i).inodes.length
        = (applyOps initState ops1).inodes.length
    ∧ (∀ j, j ≠ i →
        slotAt (fr_fuse_delete_inode (applyOps initState ops1) i).inodes j
          = slotAt (applyOps initState ops1).inodes j)
    ∧ (slotAt (fr_fuse_delete_inode (applyOps initState ops1) i).inodes i = none
        ∨ fr_fuse_delete_inode (applyOps initState ops1) i = applyOps initState ops1)
    ∧ (fr_fuse_create_inode (applyOps initState ops1) src).2
        = (applyOps initState ops1).inodes.length
    ∧ ((fr_fuse_create_inode (applyOps initState ops1) src).1).inodes.length
        = (applyOps initState ops1).inodes.length + 1
    ∧ (i < (applyOps initState ops1).inodes.length →
        (fr_fuse_create_inode
          (applyOps (fr_fuse_delete_inode (applyOps initState ops1) i) ops2) src).2 ≠ i) := by
  refine ⟨fr_fuse_delete_inode_length _ _, fun j hj => fr_fuse_delete_inode_slot_ne _ _ _ hj,
    ?_, rfl, by simp [fr_fuse_create_inode], ?_⟩
  · by_cases h2 : 2 ≤ i
    · cases hs : slotAt (applyOps initState ops1).inodes i with
      | none =>
        right
        unfold fr_fuse_delete_inode
        by_cases hg : i ≤ 1 ∨ (applyOps initState ops1).inodes.length ≤ i
        · simp [hg]
        · simp [hg, hs]
      | some f => exact Or.inl (fr_fuse_delete_inode_slot_self _ _ _ h2 hs)
    · right
      unfold fr_fuse_delete_inode
      have hg : i ≤ 1 ∨ (applyOps initState ops1).inodes.length ≤ i := Or.inl (by omega)
      simp [hg]
  · intro hlt
    have h1 : (fr_fuse_delete_inode (applyOps initState ops1) i).inodes.length
        = (applyOps initState ops1).inodes.length := fr_fuse_delete_inode_length _ _
    have h2 := applyOps_length_le (fr_fuse_delete_inode (applyOps initState ops1) i) ops2
    have : (fr_fuse_create_inode
        (applyOps (fr_fuse_delete_inode (applyOps initState ops1) i) ops2) src).2
        = (applyOps (fr_fuse_delete_inode (applyOps initState ops1) i) ops2).inodes.length := rfl
    omega

/-- Witness for C1 at a concrete run: inode 2 is allocated after one Create,
and the Create performed after Delete(2) returns inode 3, not 2. -/
theorem inode_numbers_never_reused_witness :
    2 < (applyOps initState [TableOp.create (some entFile)]).inodes.length
    ∧ (fr_fuse_create_inode
        (applyOps (fr_fuse_delete_inode
          (applyOps initState [TableOp.create (some entFile)]) 2) [])
        (some entFileB)).2 ≠ 2 :=
  ⟨by decide,
   (inode_numbers_never_reused [TableOp.create (some entFile)] [] 2
      (some entFileB)).2.2.2.2.2 (by decide)⟩

theorem agreement_create_none (s : FuseState) (h : agreement s) :
    agreement (fr_fuse_create_inode s none).1 := by
  constructor
  · intro i f hs
    simp only [fr_fuse_create_inode] at hs ⊢
    rcases Nat.lt_trichotomy i s.inodes.length with hlt | heq | hgt
    · rw [slotAt_append_lt _ _ _ hlt] at hs
      exact h.1 i f hs
    · rw [heq, slotAt_append_self] at hs
      cases hs
    · rw [slotAt_eq_none_of_le _ _ (by simpa using hgt)] at hs
      cases hs
  · intro p i hp
    simp only [fr_fuse_create_inode] at hp ⊢
    obtain ⟨f, hs, hfp⟩ := h.2 p i hp
    exact ⟨f, by rw [slotAt_append_lt _ _ _ (slotAt_lt_of_some _ _ _ hs)]; exact hs, hfp⟩

theorem agreement_create_some (s : FuseState) (g : FrFileData) (h : agreement s)
    (hfresh : mapContains s.paths g.full_path = false) :
    agreement (fr_fuse_create_inode s (some g)).1 := by
  have hnone : s.paths g.full_path = none := by
    cases hp : s.paths g.full_path with
    | none => rfl
    | some v =>
      unfold mapContains at hfresh
      rw [hp] at hfresh
      simp at hfresh
  constructor
  · intro i f hs
    simp only [fr_fuse_create_inode] at hs ⊢
    rcases Nat.lt_trichotomy i s.inodes.length with hlt | heq | hgt
    · rw [slotAt_append_lt _ _ _ hlt] at hs
      have hold := h.1 i f hs
      have hne : f.full_path ≠ g.full_path := by
        intro hcontra
        rw [hcontra, hnone] at hold
        cases hold
      unfold mapReplace
      simp [hne, hold]
    · rw [heq, slotAt_append_self] at hs
      cases hs
      unfold mapReplace
      simp [heq]
    · rw [slotAt_eq_none_of_le _ _ (by simpa using hgt)] at hs
      cases hs
  · intro p i hp
    simp only [fr_fuse_create_inode] at hp ⊢
    unfold mapReplace at hp
    by_cases hpg : p = g.full_path
    · rw [if_pos hpg] at hp
      cases hp
      exact ⟨g, by rw [slotAt_append_self], hpg.symm⟩
    · rw [if_neg hpg] at hp
      obtain ⟨f, hs, hfp⟩ := h.2 p i hp
      exact ⟨f, by rw [slotAt_append_lt _ _ _ (slotAt_lt_of_some _ _ _ hs)]; exact hs, hfp⟩

theorem agreement_delete (s : FuseState) (ino : Nat) (h : agreement s) :
    agreement (fr_fuse_delete_inode s ino) := by
  unfold fr_fuse_delete_inode
  by_cases hg : ino ≤ 1 ∨ s.inodes.length ≤ ino
  · simpa [hg] using h
  · cases hs : slotAt s.inodes ino with
    | none => simpa [hg, hs] using h
    | some f0 =>
      simp only [hg, hs, if_neg, ite_false]
      have hino : s.paths f0.full_path = some ino := h.1 ino f0 hs
      constructor
      · intro j g hj
        by_cases hji : j = ino
        · rw [hji, slotAt_setAt_self _ _ _ (by omega)] at hj
          cases hj
        · rw [slotAt_setAt_ne _ _ _ _ hji] at hj
          have hold := h.1 j g hj
          have hne : g.full_path ≠ f0.full_path := by
            intro hcontra
            rw [hcontra, hino] at hold
            exact hji (by cases hold; rfl)
          unfold mapRemove
          simp [hne, hold]
      · intro p j hp
        have hp' : (if p = f0.full_path then none else s.paths p) = some j := hp
        by_cases hpf : p = f0.full_path
        · rw [if_pos hpf] at hp'
          cases hp'
        · rw [if_neg hpf] at hp'
          obtain ⟨g, hsg, hgp⟩ := h.2 p j hp'
          have hji : j ≠ ino := by
            intro hcontra
            rw [hcontra, hs] at hsg
            cases hsg
            exact hpf hgp.symm
          exact ⟨g, by rw [slotAt_setAt_ne _ _ _ _ hji]; exact hsg, hgp⟩

theorem agreement_initState : agreement initState := by
  constructor
  · intro i f hs
    have h2 : initState.inodes = [none, none] := rfl
    rw [h2] at hs
    rcases i with _ | _ | i' <;> simp [slotAt] at hs
  · intro p i hp
    have h2 : initState.paths p = none := rfl
    rw [h2] at hp
    cases hp

theorem agreement_applyOps (ops : List TableOp) :
    ∀ s, agreement s → createsFresh s ops = true → agreement (applyOps s ops) := by
  induction ops with
  | nil => exact fun s h _ => h
  | cons op rest ih =>
    intro s h hf
    simp only [createsFresh, Bool.and_eq_true] at hf
    have hstep : agreement (applyOp s op) := by
      cases op with
      | create src =>
        cases src with
        | none => exact agreement_create_none s h
        | some g =>
          exact agreement_create_some s g h (by simpa using hf.1)
      | delete ino => exact agreement_delete s ino h
    exact ih _ hstep hf.2

/-- C2, counterexample — as stated over arbitrary Create/Delete sequences the
claim is false: creating two entries with the same full path makes the second
`g_hash_table_replace` steal the map entry, so the first slot stays live while
the map points at the second slot. -/
theorem table_map_agreement_counterexample :
    ¬ agreement (applyOps initState
      [TableOp.create (some entFile), TableOp.create (some entFile)]) := by
  intro h
  have hslot : slotAt (applyOps initState
      [TableOp.create (some entFile), TableOp.create (some entFile)]).inodes 2
      = some entFile := rfl
  have h1 := h.1 2 entFile hslot
  have h2 : (applyOps initState
      [TableOp.create (some entFile), TableOp.create (some entFile)]).paths
      entFile.full_path = some 3 := rfl
  rw [h2] at h1
  cases h1

/-- C2, amended — table/reverse-map agreement holds after every sequence of
Create and Delete operations from the initial table in which each Create of a
live entry happens while that entry's full path is absent from the reverse
map (exactly how Reconcile invokes Create): every live slot's full path is
mapped to that same slot, and every map entry points at the live slot
carrying that path (in particular no hole's former path survives in the
map). -/
theorem table_map_agreement (ops : List TableOp)
    (h : createsFresh initState ops = true) :
    agreement (applyOps initState ops) :=
  agreement_applyOps ops initState agreement_initState h

/-- Witness for the amended C2 on a concrete fresh-create sequence including a
deletion and a re-creation of the same path. -/
theorem table_map_agreement_witness :
    createsFresh initState
      [TableOp.create (some entFile), TableOp.delete 2,
       TableOp.create (some entFile)] = true
    ∧ agreement (applyOps initState
      [TableOp.create (some entFile), TableOp.delete 2,
       TableOp.create (some entFile)]) :=
  ⟨by decide,
   table_map_agreement
     [TableOp.create (some entFile), TableOp.delete 2,
      TableOp.create (some entFile)] (by decide)⟩

theorem take_min_length {α : Type} (xs : List α) (n : Nat) :
    xs.take (min xs.length n) = xs.take n := by
  induction xs generalizing n with
  | nil => simp
  | cons x rest ih =>
    cases n with
    | zero => simp
    | succ n' => simp [Nat.succ_min_succ, ih]

/-- C3 — Read reply clamping: for every loaded buffer, offset and size, the
reply of `_fr_fuse_reply_buf_limited` is exactly the slice `[off, off+size)`
clamped to the buffer length; in particular it is empty when the offset is at
or past the end, and when `off + size` overruns the end it is exactly the
remaining `length - off` bytes. -/
theorem read_reply_clamped (buf : List Nat) (off size : Nat) :
    fr_fuse_reply_buf_limited buf off size = (buf.drop off).take size
    ∧ (buf.length ≤ off → fr_fuse_reply_buf_limited buf off size = [])
    ∧ (off < buf.length → buf.length ≤ off + size →
        fr_fuse_reply_buf_limited buf off size = buf.drop off
        ∧ (fr_fuse_reply_buf_limited buf off size).length = buf.length - off) := by
  have hmain : fr_fuse_reply_buf_limited buf off size = (buf.drop off).take size := by
    unfold fr_fuse_reply_buf_limited
    by_cases h : off < buf.length
    · rw [if_pos h]
      have hlen : buf.length - off = (buf.drop off).length := (List.length_drop off buf).symm
      rw [hlen, take_min_length]
    · rw [if_neg h, List.drop_eq_nil_of_le (by omega), List.take_nil]
  refine ⟨hmain, fun h => ?_, fun h1 h2 => ?_⟩
  · rw [hmain, List.drop_eq_nil_of_le h, List.take_nil]
  · have hdrop : (buf.drop off).length = buf.length - off := List.length_drop off buf
    have htake : (buf.drop off).take size = buf.drop off :=
      List.take_of_length_le (by omega)
    rw [hmain, htake]
    exact ⟨rfl, by rw [hdrop]⟩

/-- Witness for C3 at a concrete overrunning read. -/
theorem read_reply_clamped_witness :
    fr_fuse_reply_buf_limited [10, 11, 12] 1 5 = [11, 12]
    ∧ (fr_fuse_reply_buf_limited [10, 11, 12] 1 5).length = 2 := by
  have h := (read_reply_clamped [10, 11, 12] 1 5).2.2 (by decide) (by decide)
  exact ⟨h.1.trans (by decide), h.2.trans (by decide)⟩

/-- C4, failing input — the success path of `_fr_fuse_release` answers its
request handle zero times: releasing a live regular-file inode (here inode 2,
with or without an existing scratch copy) performs its cleanup and returns
without any `fuse_reply_*` call, contradicting the answered-exactly-once
requirement that every other handler path satisfies. -/
theorem release_sends_no_reply :
    releaseReplyCount fileState [] 2 = 0
    ∧ releaseReplyCount fileState ["a.txt"] 2 = 0 := by
  decide

/-- C5, counterexample — looking up `.` under a resolvable non-root parent
does not reply with that parent's identity: with a live directory at inode 2,
`Lookup(2, ".")` replies inode 1 (the hardcoded `FUSE_ROOT_ID`), not 2. -/
theorem lookup_dot_claim_false : ¬ lookupDotSelfClaim := by
  intro h
  obtain ⟨d, sz, he⟩ := h dirState 2 (Or.inr (by decide))
  have hev : fr_fuse_lookup dirState 2 "." = LookupReply.entry 1 true 7 := by decide
  rw [hev] at he
  simp at he

/-- C5, amended — for every parent inode that resolves (the root or any live
slot), `Lookup(parent, ".")` replies with the ROOT's identity: inode
`FUSE_ROOT_ID = 1`, directory attributes, and the root's aggregate size —
regardless of which parent was queried. -/
theorem lookup_dot_replies_root (s : FuseState) (parent : Nat)
    (h : parent = 1 ∨ (fr_fuse_get_file_by_ino s parent).isSome = true) :
    fr_fuse_lookup s parent "."
      = LookupReply.entry 1 true (fr_fuse_get_size_by_ino s 1) := by
  have hres : ∃ p, resolveDirPath s parent = some p := by
    rcases h with h1 | h2
    · exact ⟨"/", by simp [resolveDirPath, h1]⟩
    · by_cases h1 : parent = 1
      · exact ⟨"/", by simp [resolveDirPath, h1]⟩
      · obtain ⟨dir, hdir⟩ := Option.isSome_iff_exists.mp h2
        exact ⟨canonicalize dir.full_path, by simp [resolveDirPath, h1, hdir]⟩
  obtain ⟨p, hp⟩ := hres
  unfold fr_fuse_lookup
  rw [hp]
  simp

/-- Witness for the amended C5 at a live directory parent. -/
theorem lookup_dot_replies_root_witness :
    (fr_fuse_get_file_by_ino dirState 2).isSome = true
    ∧ fr_fuse_lookup dirState 2 "."
        = LookupReply.entry 1 true (fr_fuse_get_size_by_ino dirState 1)
    ∧ fr_fuse_get_size_by_ino dirState 1 = 7 :=
  ⟨by decide, lookup_dot_replies_root dirState 2 (Or.inr (by decide)), by decide⟩

/-- C6, counterexample — an open of a live regular file with access mode
`O_RDONLY` but the `O_APPEND` bit set is accepted, not rejected with the
permission error: the code checks only `(flags & O_ACCMODE) != O_RDONLY`, and
`O_APPEND` lies outside `O_ACCMODE`. -/
theorem open_append_accepted :
    fr_fuse_open fileState 2 ⟨AccMode.rdonly, true⟩ = OpenReply.ok
    ∧ OpenReply.ok ≠ OpenReply.err Errno.EACCES := by
  decide

/-- C6, amended — `Open(inode, flags)` rejects the root inode with `EISDIR`,
rejects any access mode other than read-only with `EACCES` (the `O_APPEND`
bit by itself is not inspected), rejects an out-of-range, reserved or hole
inode with `ENOENT`, rejects a directory entry's inode with `EISDIR`, and
accepts every remaining request. -/
theorem open_characterization (s : FuseState) (ino : Nat) (flags : OpenFlags) :
    (ino = 1 → fr_fuse_open s ino flags = .err .EISDIR)
    ∧ (ino ≠ 1 → flags.accMode ≠ .rdonly → fr_fuse_open s ino flags = .err .EACCES)
    ∧ (ino ≠ 1 → flags.accMode = .rdonly → fr_fuse_get_file_by_ino s ino = none →
        fr_fuse_open s ino flags = .err .ENOENT)
    ∧ (∀ f, ino ≠ 1 → flags.accMode = .rdonly → fr_fuse_get_file_by_ino s ino = some f →
        fr_file_data_is_dir f = true → fr_fuse_open s ino flags = .err .EISDIR)
    ∧ (∀ f, ino ≠ 1 → flags.accMode = .rdonly → fr_fuse_get_file_by_ino s ino = some f →
        fr_file_data_is_dir f = false → fr_fuse_open s ino flags = .ok) := by
  refine ⟨fun h1 => ?_, fun h1 h2 => ?_, fun h1 h2 h3 => ?_,
    fun f h1 h2 h3 h4 => ?_, fun f h1 h2 h3 h4 => ?_⟩ <;>
  · unfold fr_fuse_open
    simp_all

/-- Witness for the amended C6: a plain read-only open of a live regular file
is accepted. -/
theorem open_characterization_witness :
    fr_fuse_get_file_by_ino fileState 2 = some entFile
    ∧ fr_file_data_is_dir entFile = false
    ∧ fr_fuse_open fileState 2 ⟨AccMode.rdonly, false⟩ = OpenReply.ok :=
  ⟨by decide, by decide,
   (open_characterization fileState 2 ⟨AccMode.rdonly, false⟩).2.2.2.2 entFile
     (by decide) (by decide) (by decide) (by decide)⟩

theorem dpl_length (files : List FrFileData) (l : List Nat) (st : FuseState) (n : Nat) :
    ((deletePassList files l (st, n)).1).inodes.length = st.inodes.length := by
  induction l generalizing st n with
  | nil => rfl
  | cons i rest ih =>
    simp only [deletePassList]
    by_cases h2 : 2 ≤ i
    · rw [if_pos h2]
      cases hs : slotAt st.inodes i with
      | none => simp only [hs]; exact ih _ _
      | some f =>
        simp only [hs]
        by_cases hh : origInHash files f.original_path = true
        · rw [if_pos hh]; exact ih _ _
        · rw [if_neg hh]
          rw [ih _ _, fr_fuse_delete_inode_length]
    · rw [if_neg h2]; exact ih _ _

theorem dpl_slot_not_mem (files : List FrFileData) (l : List Nat) (st : FuseState)
    (n j : Nat) (hj : j ∉ l) :
    slotAt ((deletePassList files l (st, n)).1).inodes j = slotAt st.inodes j := by
  induction l generalizing st n with
  | nil => rfl
  | cons i rest ih =>
    have hji : j ≠ i := fun h => hj (h ▸ List.mem_cons_self i rest)
    have hjr : j ∉ rest := fun h => hj (List.mem_cons_of_mem i h)
    simp only [deletePassList]
    by_cases h2 : 2 ≤ i
    · rw [if_pos h2]
      cases hs : slotAt st.inodes i with
      | none => simp only [hs]; exact ih _ _ hjr
      | some f =>
        simp only [hs]
        by_cases hh : origInHash files f.original_path = true
        · rw [if_pos hh]; exact ih _ _ hjr
        · rw [if_neg hh, ih _ _ hjr, fr_fuse_delete_inode_slot_ne _ _ _ hji]
    · rw [if_neg h2]; exact ih _ _ hjr

theorem dpl_slot_mem (files : List FrFileData) (l : List Nat) (st : FuseState)
    (n j : Nat) (hj : j ∈ l) (hnd : l.Nodup) :
    slotAt ((deletePassList files l (st, n)).1).inodes j =
      if 2 ≤ j then
        match slotAt st.inodes j with
        | none => none
        | some f => if origInHash files f.original_path then some f else none
      else slotAt st.inodes j := by
  induction l generalizing st n with
  | nil => cases hj
  | cons i rest ih =>
    rcases List.mem_cons.mp hj with hji | hjr
    · subst hji
      have hjnr : j ∉ rest := (List.nodup_cons.mp hnd).1
      simp only [deletePassList]
      by_cases h2 : 2 ≤ j
      · rw [if_pos h2, if_pos h2]
        cases hs : slotAt st.inodes j with
        | none =>
          simp only [hs]
          rw [dpl_slot_not_mem files rest _ _ _ hjnr, hs]
        | some f =>
          simp only [hs]
          by_cases hh : origInHash files f.original_path = true
          · rw [if_pos hh, if_pos hh, dpl_slot_not_mem files rest _ _ _ hjnr, hs]
          · rw [if_neg hh, if_neg hh, dpl_slot_not_mem files rest _ _ _ hjnr,
              fr_fuse_delete_inode_slot_self st j f h2 hs]
      · rw [if_neg h2, if_neg h2, dpl_slot_not_mem files rest _ _ _ hjnr]
    · have hnd' : rest.Nodup := (List.nodup_cons.mp hnd).2
      have hinr : i ∉ rest := (List.nodup_cons.mp hnd).1
      have hij : j ≠ i := fun h => hinr (h ▸ hjr)
      simp only [deletePassList]
      by_cases h2 : 2 ≤ i
      · rw [if_pos h2]
        cases hs : slotAt st.inodes i with
        | none => simp only [hs]; exact ih _ _ hjr hnd'
        | some f =>
          simp only [hs]
          by_cases hh : origInHash files f.original_path = true
          · rw [if_pos hh]; exact ih _ _ hjr hnd'
          · rw [if_neg hh, ih _ _ hjr hnd', fr_fuse_delete_inode_slot_ne st i j hij]
      · rw [if_neg h2]; exact ih _ _ hjr hnd'

theorem deletePass_live (files : List FrFileData) (s : FuseState) (j : Nat) (f : FrFileData)
    (h2 : 2 ≤ j) (h : slotAt ((deletePassC files s).1).inodes j = some f) :
    origInHash files f.original_path = true := by
  unfold deletePassC at h
  by_cases hlt : j < s.inodes.length
  · rw [dpl_slot_mem files _ s 0 j (List.mem_range.mpr hlt) (List.nodup_range _),
      if_pos h2] at h
    cases hs : slotAt s.inodes j with
    | none =>
      simp only [hs] at h
      cases h
    | some g =>
      simp only [hs] at h
      by_cases hh : origInHash files g.original_path = true
      · rw [if_pos hh] at h
        cases h
        exact hh
      · rw [if_neg hh] at h
        cases h
  · have hlen := dpl_length files (List.range s.inodes.length) s 0
    rw [slotAt_eq_none_of_le _ j (by omega)] at h
    cases h

theorem cpl_slot_lt (files : List FrFileData) (st : FuseState) (n j : Nat)
    (hj : j < st.inodes.length) :
    slotAt ((createPassList files (st, n)).1).inodes j = slotAt st.inodes j := by
  induction files generalizing st n with
  | nil => rfl
  | cons g rest ih =>
    simp only [createPassList]
    by_cases hc : mapContains st.paths g.full_path = true
    · rw [if_pos hc]; exact ih _ _ hj
    · rw [if_neg hc]
      have hlen : j < ((fr_fuse_create_inode st (some g)).1).inodes.length := by
        simp only [fr_fuse_create_inode, List.length_append, List.length_cons]
        omega
      rw [ih _ _ hlen]
      exact slotAt_append_lt _ _ _ hj

theorem cpl_new_slot (files : List FrFileData) (st : FuseState) (n j : Nat) (f : FrFileData)
    (hj : st.inodes.length ≤ j)
    (h : slotAt ((createPassList files (st, n)).1).inodes j = some f) :
    f ∈ files := by
  induction files generalizing st n with
  | nil =>
    rw [show createPassList [] (st, n) = (st, n) from rfl,
      slotAt_eq_none_of_le _ _ hj] at h
    cases h
  | cons g rest ih =>
    simp only [createPassList] at h
    by_cases hc : mapContains st.paths g.full_path = true
    · rw [if_pos hc] at h
      exact List.mem_cons_of_mem g (ih _ _ hj h)
    · rw [if_neg hc] at h
      by_cases hje : j = st.inodes.length
      · have hlt : j < ((fr_fuse_create_inode st (some g)).1).inodes.length := by
          simp only [fr_fuse_create_inode, List.length_append, List.length_cons]
          omega
        rw [cpl_slot_lt rest _ _ _ hlt] at h
        have hself : slotAt ((fr_fuse_create_inode st (some g)).1).inodes j = some g := by
          simp only [fr_fuse_create_inode]
          rw [hje]
          exact slotAt_append_self _ _
        rw [hself] at h
        cases h
        exact List.mem_cons_self _ _
      · have hj' : ((fr_fuse_create_inode st (some g)).1).inodes.length ≤ j := by
          simp only [fr_fuse_create_inode, List.length_append, List.length_cons,
            List.length_nil]
          omega
        exact List.mem_cons_of_mem g (ih _ _ hj' h)

theorem cpl_contains_mono (files : List FrFileData) (st : FuseState) (n : Nat) (k : String)
    (h : mapContains st.paths k = true) :
    mapContains ((createPassList files (st, n)).1).paths k = true := by
  induction files generalizing st n with
  | nil => exact h
  | cons g rest ih =>
    simp only [createPassList]
    by_cases hc : mapContains st.paths g.full_path = true
    · rw [if_pos hc]; exact ih _ _ h
    · rw [if_neg hc]
      apply ih
      show mapContains (mapReplace st.paths g.full_path st.inodes.length) k = true
      by_cases hk : k = g.full_path
      · simp [mapContains, mapReplace, hk]
      · simpa [mapContains, mapReplace, hk] using h

theorem cpl_all (files : List FrFileData) (st : FuseState) (n : Nat) :
    ∀ f ∈ files, mapContains ((createPassList files (st, n)).1).paths f.full_path = true := by
  induction files generalizing st n with
  | nil => intro f hf; cases hf
  | cons g rest ih =>
    intro f hf
    simp only [createPassList]
    by_cases hc : mapContains st.paths g.full_path = true
    · rw [if_pos hc]
      rcases List.mem_cons.mp hf with rfl | hfr
      · exact cpl_contains_mono rest st n f.full_path hc
      · exact ih _ _ f hfr
    · rw [if_neg hc]
      rcases List.mem_cons.mp hf with rfl | hfr
      · apply cpl_contains_mono
        show mapContains (mapReplace st.paths f.full_path st.inodes.length) f.full_path = true
        simp [mapContains, mapReplace]
      · exact ih _ _ f hfr

theorem dpl_noop (files : List FrFileData) (l : List Nat) (st : FuseState) (n : Nat)
    (h : ∀ j f, 2 ≤ j → slotAt st.inodes j = some f →
      origInHash files f.original_path = true) :
    deletePassList files l (st, n) = (st, n) := by
  induction l with
  | nil => rfl
  | cons i rest ih =>
    simp only [deletePassList]
    by_cases h2 : 2 ≤ i
    · rw [if_pos h2]
      cases hs : slotAt st.inodes i with
      | none => simp only [hs]; exact ih
      | some f =>
        simp only [hs]
        rw [if_pos (h i f h2 hs)]
        exact ih
    · rw [if_neg h2]; exact ih

theorem cpl_noop (files : List FrFileData) (st : FuseState) (n : Nat)
    (h : ∀ f ∈ files, mapContains st.paths f.full_path = true) :
    createPassList files (st, n) = (st, n) := by
  induction files with
  | nil => rfl
  | cons g rest ih =>
    simp only [createPassList]
    rw [if_pos (h g (List.mem_cons_self g rest))]
    exact ih (fun f hf => h f (List.mem_cons_of_mem g hf))

theorem update_inodes_live (files : List FrFileData) (s : FuseState) (j : Nat)
    (f : FrFileData) (h2 : 2 ≤ j)
    (h : slotAt ((fr_fuse_update_inodes files s).1).inodes j = some f) :
    origInHash files f.original_path = true := by
  have h' : slotAt ((createPassList files ((deletePassC files s).1, 0)).1).inodes j
      = some f := h
  by_cases hlt : j < ((deletePassC files s).1).inodes.length
  · rw [cpl_slot_lt files _ 0 j hlt] at h'
    exact deletePass_live files s j f h2 h'
  · have hmem : f ∈ files := cpl_new_slot files _ 0 j f (by omega) h'
    unfold origInHash
    rw [List.any_eq_true]
    exact ⟨f, hmem, by simp⟩

/-- C7 — Reconcile is idempotent: for every archive entry listing and every
table state, running `fr_fuse_update_inodes` a second time with the same
listing performs zero Delete and zero Create operations and leaves the table
and the reverse map exactly as the first run left them. -/
theorem reconcile_idempotent (files : List FrFileData) (s : FuseState) :
    fr_fuse_update_inodes files (fr_fuse_update_inodes files s).1
      = ((fr_fuse_update_inodes files s).1, 0, 0) := by
  have hdel : deletePassC files (fr_fuse_update_inodes files s).1
      = ((fr_fuse_update_inodes files s).1, 0) := by
    unfold deletePassC
    apply dpl_noop
    intro j f h2 hslot
    exact update_inodes_live files s j f h2 hslot
  have hcre : createPassC files (fr_fuse_update_inodes files s).1
      = ((fr_fuse_update_inodes files s).1, 0) := by
    unfold createPassC
    apply cpl_noop
    intro f hf
    exact cpl_all files (deletePassC files s).1 0 f hf
  show ((createPassC files (deletePassC files (fr_fuse_update_inodes files s).1).1).1,
      (deletePassC files (fr_fuse_update_inodes files s).1).2,
      (createPassC files (deletePassC files (fr_fuse_update_inodes files s).1).1).2)
    = ((fr_fuse_update_inodes files s).1, 0, 0)
  rw [hdel, hcre]

/-- C8 — Release on a live regular-file inode deletes the scratch copy of the
entry if and only if a file currently exists at the scratch path; when no
scratch file exists (as after an Open with no intervening Read, since only
Read triggers extraction), Release performs no deletion, leaves the scratch
area untouched and records no error. -/
theorem release_scratch_deletion (s : FuseState) (scratch : List String) (ino : Nat)
    (f : FrFileData) (hf : fr_fuse_get_file_by_ino s ino = some f)
    (hd : fr_file_data_is_dir f = false) :
    ((fr_fuse_release s scratch ino).2.1 = true ↔ scratch.contains f.original_path = true)
    ∧ (scratch.contains f.original_path = false →
        fr_fuse_release s scratch ino = (scratch, false, none))
    ∧ (scratch.contains f.original_path = true →
        fr_fuse_release s scratch ino = (scratch.erase f.original_path, true, none)) := by
  have hrel : fr_fuse_release s scratch ino =
      (if scratch.contains f.original_path then
        (scratch.erase f.original_path, true, none)
      else (scratch, false, none)) := by
    unfold fr_fuse_release
    simp [hf, hd]
  rw [hrel]
  cases hc : scratch.contains f.original_path <;> simp [hc]

/-- Witness for C8: releasing after an open with no read (empty scratch area)
deletes nothing and records no error. -/
theorem release_scratch_deletion_witness :
    fr_fuse_get_file_by_ino fileState 2 = some entFile
    ∧ fr_file_data_is_dir entFile = false
    ∧ ([] : List String).contains entFile.original_path = false
    ∧ fr_fuse_release fileState [] 2 = ([], false, none) :=
  ⟨by decide, by decide, by decide,
   (release_scratch_deletion fileState [] 2 entFile (by decide) (by decide)).2.1
     (by decide)⟩

/-- C9 — Successful construction already mounts: whenever `fr_fuse_new`
returns a bridge without error, that bridge is already started, its inode
table holds exactly the two reserved hole slots, its request thread is
running, and a subsequent explicit `fr_fuse_mount` call — under any outcome
of the external mount machinery — is a no-op returning no error. -/
theorem construct_already_mounted (env : ExtEnv) (b : Bridge)
    (h : fr_fuse_new env = .ok b) :
    b.started = true ∧ b.table = some initState ∧ b.threadRunning = true
    ∧ initState.inodes = [none, none]
    ∧ ∀ env2, fr_fuse_mount env2 b = (b, none) := by
  obtain ⟨so, mo, tk⟩ := env
  cases so <;> cases mo <;> cases tk <;>
    simp only [fr_fuse_new, fr_fuse_mount] at h <;>
    simp at h
  subst h
  exact ⟨rfl, rfl, rfl, rfl, fun env2 => by simp [fr_fuse_mount]⟩

/-- Witness for C9: a fully successful construction yields the mounted bridge,
and an explicit mount afterwards is a no-op even when the external mount
machinery would fail. -/
theorem construct_already_mounted_witness :
    mountedBridge.started = true
    ∧ mountedBridge.table = some initState
    ∧ fr_fuse_mount ⟨false, false, false⟩ mountedBridge = (mountedBridge, none) := by
  have h := construct_already_mounted ⟨true, true, true⟩ mountedBridge rfl
  exact ⟨h.1, h.2.1, h.2.2.2.2 ⟨false, false, false⟩⟩

/-- C10 — When the parent/directory inode is out of range, reserved, or a
hole, Lookup and ReadDirectory reply `ENOTDIR`, while GetAttributes, Open
(with a read-only access mode), Read and Release reply `ENOENT` for the same
unresolvable inode. -/
theorem unresolvable_inode_errors (s : FuseState) (ino : Nat) (name : String)
    (size off : Nat) (flags : OpenFlags) (scratch : List String)
    (h1 : ino ≠ 1) (h2 : fr_fuse_get_file_by_ino s ino = none) :
    fr_fuse_lookup s ino name = .err .ENOTDIR
    ∧ fr_fuse_readdir s ino size off = .err .ENOTDIR
    ∧ fr_fuse_getattr s ino = .err .ENOENT
    ∧ (flags.accMode = .rdonly → fr_fuse_open s ino flags = .err .ENOENT)
    ∧ fr_fuse_read s ino size off = .err .ENOENT
    ∧ fr_fuse_release s scratch ino = (scratch, false, some .ENOENT) := by
  have hres : resolveDirPath s ino = none := by
    unfold resolveDirPath
    simp [h1, h2]
  refine ⟨?_, ?_, ?_, fun hrd => ?_, ?_, ?_⟩
  · unfold fr_fuse_lookup; rw [hres]
  · unfold fr_fuse_readdir; rw [hres]
  · unfold fr_fuse_getattr; simp [h1, h2]
  · unfold fr_fuse_open; simp [h1, h2, hrd]
  · unfold fr_fuse_read; simp [h1, h2]
  · unfold fr_fuse_release; simp [h2]

/-- Witness for C10 at the reserved inode 0 on the freshly mounted table. -/
theorem unresolvable_inode_errors_witness :
    (0 : Nat) ≠ 1 ∧ fr_fuse_get_file_by_ino initState 0 = none
    ∧ fr_fuse_lookup initState 0 "x" = .err .ENOTDIR
    ∧ fr_fuse_readdir initState 0 4096 0 = .err .ENOTDIR
    ∧ fr_fuse_getattr initState 0 = .err .ENOENT
    ∧ fr_fuse_open initState 0 ⟨AccMode.rdonly, false⟩ = .err .ENOENT
    ∧ fr_fuse_read initState 0 4096 0 = .err .ENOENT
    ∧ fr_fuse_release initState [] 0 = ([], false, some .ENOENT) := by
  have h := unresolvable_inode_errors initState 0 "x" 4096 0 ⟨AccMode.rdonly, false⟩ []
    (by decide) (by decide)
  exact ⟨by decide, by decide, h.1, h.2.1, h.2.2.1, h.2.2.2.1 rfl, h.2.2.2.2.1,
    h.2.2.2.2.2⟩
